import Mathlib

/-!
Verification of the shredsim core (src/shredsim/utils.py): the grid-graph
builder cut_to_shreds, the border-component filter preserve_outermost and the
content predicate is_good_node, embedded shallowly in Lean.

The while-loop of cut_to_shreds pops elements from a Python set, whose pop
order is unspecified; the loop is therefore embedded as a small-step relation
(cutStep / cutRun), together with a fuel-bounded executable runner (cut_loop)
that realises one particular pop order for concrete evaluation.
-/

namespace Shredsim

/-- A base point (row, col) in document-image space; also used for 2D sizes,
mask shapes and offset vectors (length-2 numpy integer arrays in the source). -/
abbrev Pt := ℤ × ℤ

/-- The base point (0, 0) the traversal of cut_to_shreds starts from. -/
def origin : Pt := ((0 : ℤ), (0 : ℤ))

/-- Shred configuration, as the source namedtuple ShredConfig(mask, right, bottom).
cut_to_shreds reads the mask only through mask.shape, so the embedding carries
that shape (mshape) instead of the full pixel array. -/
structure ShredConfig where
  mshape : Pt
  right : Pt
  bottom : Pt

/-- Modelled from the spec: dataset.to_slice (its source file, dataset.py, is
not part of src/) returns the axis-aligned rectangular region of size
mask_shape whose top-left corner is base_point (spec section 4.2), here as a
pair of half-open index ranges (row range, column range). -/
def to_slice (p : Pt) (shape : Pt) : (ℤ × ℤ) × (ℤ × ℤ) :=
  ((p.1, p.1 + shape.1), (p.2, p.2 + shape.2))

/-- The slice attribute that cut_to_shreds stores for node p. -/
def node_slice (sc : ShredConfig) (p : Pt) : (ℤ × ℤ) × (ℤ × ℤ) :=
  to_slice p sc.mshape

/-- A slice (pair of half-open index ranges) lies entirely inside [0, size). -/
def sliceInBounds (size : Pt) (sl : (ℤ × ℤ) × (ℤ × ℤ)) : Prop :=
  0 ≤ sl.1.1 ∧ sl.1.2 ≤ size.1 ∧ 0 ≤ sl.2.1 ∧ sl.2.2 ≤ size.2

instance (size : Pt) (sl : (ℤ × ℤ) × (ℤ × ℤ)) : Decidable (sliceInBounds size sl) :=
  inferInstanceAs (Decidable (0 ≤ sl.1.1 ∧ sl.1.2 ≤ size.1 ∧ 0 ≤ sl.2.1 ∧ sl.2.2 ≤ size.2))

/-- The neighbour bounds test of cut_to_shreds: a candidate q is skipped when
some coordinate of q is negative or q + mask.shape exceeds size in some
coordinate; it is kept otherwise. -/
def in_bounds (size : Pt) (sc : ShredConfig) (q : Pt) : Prop :=
  0 ≤ q.1 ∧ 0 ≤ q.2 ∧ q.1 + sc.mshape.1 ≤ size.1 ∧ q.2 + sc.mshape.2 ≤ size.2

instance (size : Pt) (sc : ShredConfig) (q : Pt) : Decidable (in_bounds size sc q) :=
  inferInstanceAs (Decidable (0 ≤ q.1 ∧ 0 ≤ q.2 ∧ q.1 + sc.mshape.1 ≤ size.1 ∧ q.2 + sc.mshape.2 ≤ size.2))

/-- The four neighbour candidates of a base point, in source order:
left, right, top, bottom. -/
def neighbor_candidates (sc : ShredConfig) (p : Pt) : List Pt :=
  [p - sc.right, p + sc.right, p - sc.bottom, p + sc.bottom]

/-- The neighbour candidates of p that pass the bounds test. -/
def valid_neighbors (size : Pt) (sc : ShredConfig) (p : Pt) : List Pt :=
  (neighbor_candidates sc p).filter fun q => decide (in_bounds size sc q)

/-- Canonical (lexicographically ordered) representative of the undirected
edge between a and b, standing for nx.Graph.add_edge(a, b). -/
def normEdge (a b : Pt) : Pt × Pt :=
  if a.1 < b.1 ∨ (a.1 = b.1 ∧ a.2 ≤ b.2) then (a, b) else (b, a)

/-- State of the while-loop of cut_to_shreds: the done set, the todo frontier,
and the graph built so far.  edges holds the normalised undirected edges;
slices records the per-node slice attribute attached by add_node when a base
point is popped.  At termination (todo = ∅) the node set of the returned
nx.Graph is exactly done, since every edge endpoint has been scheduled and
eventually popped. -/
structure BuildState where
  done : Finset Pt
  todo : Finset Pt
  edges : Finset (Pt × Pt)
  slices : Finset (Pt × ((ℤ × ℤ) × (ℤ × ℤ)))

instance : DecidableEq BuildState := fun s t =>
  decidable_of_iff (s.done = t.done ∧ s.todo = t.todo ∧ s.edges = t.edges ∧ s.slices = t.slices)
    (by cases s; cases t; simp [BuildState.mk.injEq])

/-- Cast-free decidable equality on Option, so that concrete runs evaluate
inside the kernel (the derived instance rewrites data along a proof, which
blocks reduction when the payloads are equal only propositionally). -/
instance optionDecEqNoCast {α : Type} [DecidableEq α] : DecidableEq (Option α) := fun a b =>
  match a, b with
  | none, none => isTrue rfl
  | none, some _ => isFalse fun h => Option.noConfusion h
  | some _, none => isFalse fun h => Option.noConfusion h
  | some x, some y => decidable_of_iff (x = y) (by simp)

/-- Loop body for one in-bounds neighbour q of the popped base point p:
graph.add_edge(p, q), then schedule q unless already done or scheduled. -/
def visit_one (p : Pt) (st : BuildState) (q : Pt) : BuildState :=
  { done := st.done
    todo := if q ∈ st.done ∨ q ∈ st.todo then st.todo else insert q st.todo
    edges := insert (normEdge p q) st.edges
    slices := st.slices }

/-- One iteration of the while-loop of cut_to_shreds: pop base point p, add it
to done, add it as a node carrying its slice attribute, then process the four
neighbour candidates, skipping the out-of-bounds ones. -/
def process_base_point (size : Pt) (sc : ShredConfig) (p : Pt) (s : BuildState) : BuildState :=
  (valid_neighbors size sc p).foldl (visit_one p)
    { done := insert p s.done
      todo := s.todo.erase p
      edges := s.edges
      slices := insert (p, node_slice sc p) s.slices }

/-- Initial loop state: done = ∅, todo = {(0, 0)}, empty graph. -/
def initState : BuildState :=
  { done := ∅, todo := {origin}, edges := ∅, slices := ∅ }

/-- One step of the while-loop: some element p of the todo set is popped
(Python set.pop is order-unspecified, so the popped element is arbitrary). -/
def cutStep (size : Pt) (sc : ShredConfig) (s t : BuildState) : Prop :=
  ∃ p ∈ s.todo, t = process_base_point size sc p s

/-- A possible (partial) execution of the while-loop of cut_to_shreds. -/
def cutRun (size : Pt) (sc : ShredConfig) : BuildState → BuildState → Prop :=
  Relation.ReflTransGen (cutStep size sc)

/-- Executable run of the while-loop, popping the given sequence of points
(one admissible realisation of the unspecified set.pop order); returns none
when a listed point is not in the frontier or the frontier is not exhausted. -/
def cut_loop (size : Pt) (sc : ShredConfig) : List Pt → BuildState → Option BuildState
  | [], s => if s.todo = ∅ then some s else none
  | p :: ps, s =>
    if p ∈ s.todo then cut_loop size sc ps (process_base_point size sc p s) else none

/-- cut_to_shreds(size, shred_config), run with the given pop sequence: builds
the adjacency graph of shreds for a document of the given size, starting from
base point (0, 0). -/
def cut_to_shreds (size : Pt) (sc : ShredConfig) (pops : List Pt) : Option BuildState :=
  cut_loop size sc pops initState

/-- Base points the traversal can reach: (0, 0), plus every in-bounds
neighbour candidate of a reachable point. -/
inductive ReachablePt (size : Pt) (sc : ShredConfig) : Pt → Prop where
  | base : ReachablePt size sc origin
  | step {p q : Pt} : ReachablePt size sc p → q ∈ valid_neighbors size sc p →
      ReachablePt size sc q

/-- Nodes a and b are joined by an edge of the undirected edge set E. -/
def graph_adj (E : Finset (Pt × Pt)) (a b : Pt) : Prop := normEdge a b ∈ E

/-- Reachability along the edges of E. -/
def graph_reach (E : Finset (Pt × Pt)) : Pt → Pt → Prop :=
  Relation.ReflTransGen (graph_adj E)

/-! Generic computable reflexive-transitive closure on a finite type, used
below to model the flood fill of cv2.floodFill. -/

/-- One expansion step of a fill: add every point one r-step away from s. -/
def stepSet {α : Type} [Fintype α] [DecidableEq α] (r : α → α → Prop) [DecidableRel r]
    (s : Finset α) : Finset α :=
  s ∪ Finset.univ.filter fun b => ∃ a ∈ s, r a b

/-- n expansion steps from s. -/
def closureN {α : Type} [Fintype α] [DecidableEq α] (r : α → α → Prop) [DecidableRel r] :
    ℕ → Finset α → Finset α
  | 0, s => s
  | n + 1, s => stepSet r (closureN r n s)

/-- All points r-reachable from x: the expansion saturates after at most
card α steps. -/
def reachSet {α : Type} [Fintype α] [DecidableEq α] (r : α → α → Prop) [DecidableRel r]
    (x : α) : Finset α :=
  closureN r (Fintype.card α) {x}

/-! The image primitives of utils.py. -/

/-- A 2D image as a function of (row, col): a numpy array of shape (h, w)
with uint8 intensity values. -/
abbrev Image (h w : ℕ) := Fin h → Fin w → ℕ

/-- np.count_nonzero(img). -/
def count_nonzero {h w : ℕ} (img : Image h w) : ℕ :=
  (Finset.univ.filter fun p : Fin h × Fin w => img p.1 p.2 ≠ 0).card

/-- is_good_node(img): whether the fraction of nonzero pixels strictly exceeds
0.05 (img.size = h * w; the Python float arithmetic is modelled with exact
rationals). -/
def is_good_node {h w : ℕ} (img : Image h w) : Prop :=
  ((count_nonzero img : ℚ) / ((h * w : ℕ) : ℚ)) > 0.05

instance {h w : ℕ} (img : Image h w) : Decidable (is_good_node img) :=
  inferInstanceAs (Decidable ((0.05 : ℚ) < _))

/-- cv2.threshold(foreground_mask, 254, 255, THRESH_BINARY_INV): 255 where the
mask value is at most 254 (the declared outside region), 0 elsewhere. -/
def outside_mask {h w : ℕ} (M : Image h w) : Image h w :=
  fun i j => if 254 < M i j then 0 else 255

/-- np.maximum(image, outside_mask): the working image whose outside region is
forced to foreground. -/
def with_outside {h w : ℕ} (I M : Image h w) : Image h w :=
  fun i j => max (I i j) (outside_mask M i j)

/-- 4-connectivity of pixel coordinates (the cv2.floodFill default); the
1-pixel padding of the fill mask confines the fill to the image grid, which
the Fin-indexed coordinates encode directly. -/
def fill_adj {h w : ℕ} (a b : Fin h × Fin w) : Prop :=
  (a.1 = b.1 ∧ ((a.2 : ℕ) + 1 = (b.2 : ℕ) ∨ (b.2 : ℕ) + 1 = (a.2 : ℕ))) ∨
  (a.2 = b.2 ∧ ((a.1 : ℕ) + 1 = (b.1 : ℕ) ∨ (b.1 : ℕ) + 1 = (a.1 : ℕ)))

instance {h w : ℕ} (a b : Fin h × Fin w) : Decidable (fill_adj a b) :=
  inferInstanceAs (Decidable (_ ∨ _))

/-- One flood-fill step: the fill spreads to a 4-neighbour whose value in
with_outside equals the seed value 255 (with default loDiff = upDiff = 0 the
fill only covers pixels equal to the seed value, and the inverted mask
255 - with_outside blocks exactly the other pixels). -/
def fill_step {h w : ℕ} (I M : Image h w) (a b : Fin h × Fin w) : Prop :=
  fill_adj a b ∧ with_outside I M b.1 b.2 = 255

instance {h w : ℕ} (I M : Image h w) : DecidableRel (fill_step I M) := fun _ _ =>
  inferInstanceAs (Decidable (_ ∧ _))

/-- np.argwhere(img == v)[0]: the first (row-major) coordinate with value v,
or none when no pixel matches, in which case the [0] indexing in the source
raises IndexError. -/
def argwhere_first {h w : ℕ} (img : Image h w) (v : ℕ) : Option (Fin h × Fin w) :=
  ((List.finRange h).flatMap fun i => (List.finRange w).map fun j => ((i, j) : Fin h × Fin w)).find?
    fun p => decide (img p.1 p.2 = v)

/-- The region where flood_fill_mask holds 1 after the fill: the filled pixels
(the fill writes 1 into the mask), plus the pixels whose initial mask value
255 - with_outside is already 1 (value 254; impossible for binary images). -/
def flood_mask_one {h w : ℕ} (I M : Image h w) (sd p : Fin h × Fin w) : Prop :=
  p ∈ reachSet (fill_step I M) sd ∨ 255 - with_outside I M p.1 p.2 = 1

instance {h w : ℕ} (I M : Image h w) (sd p : Fin h × Fin w) :
    Decidable (flood_mask_one I M sd p) :=
  inferInstanceAs (Decidable (_ ∨ _))

/-- preserve_outermost(image, foreground_mask): keep only the foreground
components of image reachable by flood fill from the outside region of the
mask; cv2.bitwise_and(image, image, mask) keeps the pixels where the mask is
nonzero (here: equal to 1).  Returns none exactly when the seed-point
selection argwhere(...)[0] is an out-of-range index (IndexError). -/
def preserve_outermost {h w : ℕ} (I M : Image h w) : Option (Image h w) :=
  (argwhere_first (outside_mask M) 255).map fun sd =>
    fun i j => if flood_mask_one I M sd (i, j) then I i j else 0

/-! Concrete instances used by counterexamples and witnesses. -/

/-- Scenario B configuration: right = (0, 1), bottom = (0, 0), unit mask. -/
def sc1 : ShredConfig := { mshape := (1, 1), right := (0, 1), bottom := (0, 0) }

def size1 : Pt := (5, 5)

/-- Terminal state of cut_to_shreds for size1 and sc1: a path of five nodes,
each carrying a self-loop produced by the zero bottom offset. -/
def c1final : BuildState :=
  { done := {(0, 0), (0, 1), (0, 2), (0, 3), (0, 4)}
    todo := ∅
    edges := {((0, 0), (0, 0)), ((0, 0), (0, 1)), ((0, 1), (0, 1)), ((0, 1), (0, 2)),
              ((0, 2), (0, 2)), ((0, 2), (0, 3)), ((0, 3), (0, 3)), ((0, 3), (0, 4)),
              ((0, 4), (0, 4))}
    slices := {((0, 0), ((0, 1), (0, 1))), ((0, 1), ((0, 1), (1, 2))), ((0, 2), ((0, 1), (2, 3))),
               ((0, 3), ((0, 1), (3, 4))), ((0, 4), ((0, 1), (4, 5)))} }

/-- A configuration with in-bounds lattice points that the traversal never
reaches: steps of two columns over a five-column strip. -/
def sc3 : ShredConfig := { mshape := (1, 1), right := (0, 2), bottom := (1, 0) }

def size3 : Pt := (1, 5)

/-- Terminal state of cut_to_shreds for size3 and sc3. -/
def c3final : BuildState :=
  { done := {(0, 0), (0, 2), (0, 4)}
    todo := ∅
    edges := {((0, 0), (0, 2)), ((0, 2), (0, 4))}
    slices := {((0, 0), ((0, 1), (0, 1))), ((0, 2), ((0, 1), (2, 3))),
               ((0, 4), ((0, 1), (4, 5)))} }

/-- Scenario A configuration: a 2-by-2 grid of 100-by-100 shreds. -/
def sc7 : ShredConfig := { mshape := (100, 100), right := (0, 110), bottom := (110, 0) }

def size7 : Pt := (220, 220)

/-- Terminal state of cut_to_shreds for size7 and sc7: four nodes and the four
edges of a single 4-cycle. -/
def c7final : BuildState :=
  { done := {(0, 0), (0, 110), (110, 0), (110, 110)}
    todo := ∅
    edges := {((0, 0), (0, 110)), ((0, 0), (110, 0)), ((0, 110), (110, 110)),
              ((110, 0), (110, 110))}
    slices := {((0, 0), ((0, 100), (0, 100))), ((0, 110), ((0, 100), (110, 210))),
               ((110, 0), ((110, 210), (0, 100))), ((110, 110), ((110, 210), (110, 210)))} }

/-- A configuration whose mask is larger than the document, so even the slice
of the root base point is out of bounds. -/
def sc10 : ShredConfig := { mshape := (2, 2), right := (0, 1), bottom := (1, 0) }

def size10 : Pt := (1, 1)

/-- Terminal state of cut_to_shreds for size10 and sc10: the root alone. -/
def c10final : BuildState :=
  { done := {(0, 0)}, todo := ∅, edges := ∅, slices := {((0, 0), ((0, 2), (0, 2)))} }

/-- A 2-by-5 image with exactly one nonzero pixel: 10 percent density. -/
def img10pct : Image 2 5 := fun i j => if i = 0 ∧ j = 0 then 7 else 0

/-- An all-zero image. -/
def imgZero : Image 1 1 := fun _ _ => 0

/-- An all-255 foreground mask: no pixel outside the 255 value. -/
def maskAll255 : Image 2 2 := fun _ _ => 255

/-- A 3-by-3 image whose only foreground pixel is the centre. -/
def imgCenter : Image 3 3 := fun i j => if i = 1 ∧ j = 1 then 255 else 0

/-- A mask declaring only the corner (0, 0) as outside. -/
def maskCorner : Image 3 3 := fun i j => if i = 0 ∧ j = 0 then 0 else 255

/-- The all-zero 3-by-3 image: the isolated centre component is dropped. -/
def imgDropped : Image 3 3 := fun _ _ => 0

/-! Basic characterisations of the loop body. -/

theorem mem_neighbor_candidates {sc : ShredConfig} {p q : Pt} :
    q ∈ neighbor_candidates sc p ↔
      q = p - sc.right ∨ q = p + sc.right ∨ q = p - sc.bottom ∨ q = p + sc.bottom := by
  simp [neighbor_candidates]

theorem mem_valid_neighbors {size : Pt} {sc : ShredConfig} {p q : Pt} :
    q ∈ valid_neighbors size sc p ↔ q ∈ neighbor_candidates sc p ∧ in_bounds size sc q := by
  simp [valid_neighbors, List.mem_filter]

theorem normEdge_self (p : Pt) : normEdge p p = (p, p) := by
  simp [normEdge]

theorem normEdge_cases (a b : Pt) : normEdge a b = (a, b) ∨ normEdge a b = (b, a) := by
  unfold normEdge; split <;> simp

theorem normEdge_eq {a b p q : Pt} (h : normEdge p q = normEdge a b) :
    (p = a ∧ q = b) ∨ (p = b ∧ q = a) := by
  rcases normEdge_cases p q with h1 | h1 <;> rcases normEdge_cases a b with h2 | h2 <;>
    rw [h1, h2] at h <;> simp only [Prod.mk.injEq] at h <;> tauto

theorem foldl_visit_done (p : Pt) (l : List Pt) (st : BuildState) :
    (l.foldl (visit_one p) st).done = st.done := by
  induction l generalizing st with
  | nil => rfl
  | cons q l ih => simpa [List.foldl_cons, visit_one] using ih (visit_one p st q)

theorem foldl_visit_slices (p : Pt) (l : List Pt) (st : BuildState) :
    (l.foldl (visit_one p) st).slices = st.slices := by
  induction l generalizing st with
  | nil => rfl
  | cons q l ih => simpa [List.foldl_cons, visit_one] using ih (visit_one p st q)

theorem mem_foldl_visit_edges (p : Pt) (l : List Pt) (st : BuildState) (e : Pt × Pt) :
    e ∈ (l.foldl (visit_one p) st).edges ↔ e ∈ st.edges ∨ ∃ q ∈ l, e = normEdge p q := by
  induction l generalizing st with
  | nil => simp
  | cons q l ih =>
    rw [List.foldl_cons, ih]
    have he : (visit_one p st q).edges = insert (normEdge p q) st.edges := rfl
    rw [he]
    constructor
    · rintro (h | ⟨r, hr, rfl⟩)
      · rcases Finset.mem_insert.mp h with rfl | h
        · exact Or.inr ⟨q, List.mem_cons_self q l, rfl⟩
        · exact Or.inl h
      · exact Or.inr ⟨r, List.mem_cons_of_mem q hr, rfl⟩
    · rintro (h | ⟨r, hr, rfl⟩)
      · exact Or.inl (Finset.mem_insert_of_mem h)
      · rcases List.mem_cons.mp hr with rfl | hr
        · exact Or.inl (Finset.mem_insert_self _ _)
        · exact Or.inr ⟨r, hr, rfl⟩

theorem mem_foldl_visit_todo (p : Pt) (l : List Pt) (st : BuildState) (x : Pt) :
    x ∈ (l.foldl (visit_one p) st).todo ↔ x ∈ st.todo ∨ (x ∈ l ∧ x ∉ st.done) := by
  induction l generalizing st with
  | nil => simp
  | cons q l ih =>
    rw [List.foldl_cons, ih]
    have hdone : (visit_one p st q).done = st.done := rfl
    rw [hdone]
    by_cases hq : q ∈ st.done ∨ q ∈ st.todo
    · have ht : (visit_one p st q).todo = st.todo := by simp [visit_one, hq]
      rw [ht]
      constructor
      · rintro (h | ⟨hx, hd⟩)
        · exact Or.inl h
        · exact Or.inr ⟨List.mem_cons_of_mem q hx, hd⟩
      · rintro (h | ⟨hx, hd⟩)
        · exact Or.inl h
        · rcases List.mem_cons.mp hx with rfl | hx
          · rcases hq with h1 | h1
            · exact absurd h1 hd
            · exact Or.inl h1
          · exact Or.inr ⟨hx, hd⟩
    · have ht : (visit_one p st q).todo = insert q st.todo := by simp [visit_one, hq]
      rw [ht]
      push_neg at hq
      constructor
      · rintro (h | ⟨hx, hd⟩)
        · rcases Finset.mem_insert.mp h with rfl | h
          · exact Or.inr ⟨List.mem_cons_self x l, hq.1⟩
          · exact Or.inl h
        · exact Or.inr ⟨List.mem_cons_of_mem q hx, hd⟩
      · rintro (h | ⟨hx, hd⟩)
        · exact Or.inl (Finset.mem_insert_of_mem h)
        · rcases List.mem_cons.mp hx with rfl | hx
          · exact Or.inl (Finset.mem_insert_self x st.todo)
          · exact Or.inr ⟨hx, hd⟩

theorem process_done (size : Pt) (sc : ShredConfig) (p : Pt) (s : BuildState) :
    (process_base_point size sc p s).done = insert p s.done := by
  unfold process_base_point; rw [foldl_visit_done]

theorem process_slices (size : Pt) (sc : ShredConfig) (p : Pt) (s : BuildState) :
    (process_base_point size sc p s).slices = insert (p, node_slice sc p) s.slices := by
  unfold process_base_point; rw [foldl_visit_slices]

theorem mem_process_edges (size : Pt) (sc : ShredConfig) (p : Pt) (s : BuildState) (e : Pt × Pt) :
    e ∈ (process_base_point size sc p s).edges ↔
      e ∈ s.edges ∨ ∃ q ∈ valid_neighbors size sc p, e = normEdge p q := by
  unfold process_base_point; rw [mem_foldl_visit_edges]

theorem mem_process_todo (size : Pt) (sc : ShredConfig) (p : Pt) (s : BuildState) (x : Pt) :
    x ∈ (process_base_point size sc p s).todo ↔
      x ∈ s.todo.erase p ∨ (x ∈ valid_neighbors size sc p ∧ x ∉ insert p s.done) := by
  unfold process_base_point; rw [mem_foldl_visit_todo]

/-! The loop invariant and the closed-form characterisation of terminal states. -/

/-- Invariant maintained by every iteration of the while-loop of cut_to_shreds. -/
structure LoopInv (size : Pt) (sc : ShredConfig) (s : BuildState) : Prop where
  origin_mem : origin ∈ s.done ∨ origin ∈ s.todo
  done_reach : ∀ p ∈ s.done, ReachablePt size sc p
  todo_reach : ∀ p ∈ s.todo, ReachablePt size sc p
  disj : ∀ p ∈ s.done, p ∉ s.todo
  closed : ∀ p ∈ s.done, ∀ q ∈ valid_neighbors size sc p, q ∈ s.done ∨ q ∈ s.todo
  edges_sub : ∀ e ∈ s.edges, ∃ p ∈ s.done, ∃ q ∈ valid_neighbors size sc p, e = normEdge p q
  edges_sup : ∀ p ∈ s.done, ∀ q ∈ valid_neighbors size sc p, normEdge p q ∈ s.edges
  slices_eq : s.slices = s.done.image fun p => (p, node_slice sc p)

theorem loopInv_init (size : Pt) (sc : ShredConfig) : LoopInv size sc initState := by
  refine ⟨?_, ?_, ?_, ?_, ?_, ?_, ?_, ?_⟩
  · exact Or.inr (by simp [initState])
  · intro p hp; simp [initState] at hp
  · intro p hp
    simp [initState] at hp
    subst hp
    exact ReachablePt.base
  · intro p hp; simp [initState] at hp
  · intro p hp; simp [initState] at hp
  · intro e he; simp [initState] at he
  · intro p hp; simp [initState] at hp
  · simp [initState]

theorem loopInv_step {size : Pt} {sc : ShredConfig} {s t : BuildState}
    (hI : LoopInv size sc s) (hst : cutStep size sc s t) : LoopInv size sc t := by
  obtain ⟨p, hp, rfl⟩ := hst
  have hpr : ReachablePt size sc p := hI.todo_reach p hp
  refine ⟨?_, ?_, ?_, ?_, ?_, ?_, ?_, ?_⟩
  · rcases hI.origin_mem with h | h
    · exact Or.inl (by rw [process_done]; exact Finset.mem_insert_of_mem h)
    · rcases eq_or_ne origin p with rfl | hne
      · exact Or.inl (by rw [process_done]; exact Finset.mem_insert_self _ _)
      · exact Or.inr (by rw [mem_process_todo]; exact Or.inl (Finset.mem_erase.mpr ⟨hne, h⟩))
  · intro x hx
    rw [process_done] at hx
    rcases Finset.mem_insert.mp hx with rfl | hx
    · exact hpr
    · exact hI.done_reach x hx
  · intro x hx
    rw [mem_process_todo] at hx
    rcases hx with hx | ⟨hv, -⟩
    · exact hI.todo_reach x (Finset.mem_of_mem_erase hx)
    · exact ReachablePt.step hpr hv
  · intro x hx hx'
    rw [process_done] at hx
    rw [mem_process_todo] at hx'
    rcases hx' with hx' | ⟨-, hnd⟩
    · rcases Finset.mem_insert.mp hx with rfl | hx
      · exact (Finset.mem_erase.mp hx').1 rfl
      · exact hI.disj x hx (Finset.mem_of_mem_erase hx')
    · exact hnd hx
  · intro x hx q hq
    rw [process_done] at hx
    rw [process_done, mem_process_todo]
    rcases Finset.mem_insert.mp hx with rfl | hx
    · by_cases hqd : q ∈ insert x s.done
      · exact Or.inl hqd
      · exact Or.inr (Or.inr ⟨hq, hqd⟩)
    · rcases hI.closed x hx q hq with h | h
      · exact Or.inl (Finset.mem_insert_of_mem h)
      · rcases eq_or_ne q p with rfl | hne
        · exact Or.inl (Finset.mem_insert_self _ _)
        · exact Or.inr (Or.inl (Finset.mem_erase.mpr ⟨hne, h⟩))
  · intro e he
    rw [mem_process_edges] at he
    rcases he with he | ⟨q, hq, rfl⟩
    · obtain ⟨x, hx, q, hq, rfl⟩ := hI.edges_sub e he
      exact ⟨x, by rw [process_done]; exact Finset.mem_insert_of_mem hx, q, hq, rfl⟩
    · exact ⟨p, by rw [process_done]; exact Finset.mem_insert_self _ _, q, hq, rfl⟩
  · intro x hx q hq
    rw [process_done] at hx
    rw [mem_process_edges]
    rcases Finset.mem_insert.mp hx with rfl | hx
    · exact Or.inr ⟨q, hq, rfl⟩
    · exact Or.inl (hI.edges_sup x hx q hq)
  · rw [process_slices, process_done, hI.slices_eq]
    simp [Finset.image_insert]

theorem cutRun_inv {size : Pt} {sc : ShredConfig} {s : BuildState}
    (h : cutRun size sc initState s) : LoopInv size sc s := by
  induction h with
  | refl => exact loopInv_init size sc
  | tail hra hst ih => exact loopInv_step ih hst

theorem final_done_iff {size : Pt} {sc : ShredConfig} {s : BuildState}
    (hI : LoopInv size sc s) (hT : s.todo = ∅) (p : Pt) :
    p ∈ s.done ↔ ReachablePt size sc p := by
  constructor
  · exact hI.done_reach p
  · intro h
    induction h with
    | base =>
      rcases hI.origin_mem with h | h
      · exact h
      · rw [hT] at h; exact absurd h (Finset.not_mem_empty _)
    | step hp hq ih =>
      rcases hI.closed _ ih _ hq with h | h
      · exact h
      · rw [hT] at h; exact absurd h (Finset.not_mem_empty _)

theorem final_edges_iff {size : Pt} {sc : ShredConfig} {s : BuildState}
    (hI : LoopInv size sc s) (hT : s.todo = ∅) (e : Pt × Pt) :
    e ∈ s.edges ↔
      ∃ p q, ReachablePt size sc p ∧ q ∈ valid_neighbors size sc p ∧ e = normEdge p q := by
  constructor
  · intro he
    obtain ⟨p, hp, q, hq, rfl⟩ := hI.edges_sub e he
    exact ⟨p, q, hI.done_reach p hp, hq, rfl⟩
  · rintro ⟨p, q, hp, hq, rfl⟩
    exact hI.edges_sup p ((final_done_iff hI hT p).mpr hp) q hq

/-- Any two terminal states of the while-loop agree on the returned graph:
same node set, same edge set, same slice attributes. -/
theorem final_unique {size : Pt} {sc : ShredConfig} {s t : BuildState}
    (hs : cutRun size sc initState s) (hsT : s.todo = ∅)
    (ht : cutRun size sc initState t) (htT : t.todo = ∅) :
    s.done = t.done ∧ s.edges = t.edges ∧ s.slices = t.slices := by
  have hIs := cutRun_inv hs
  have hIt := cutRun_inv ht
  have hdone : s.done = t.done := by
    ext p
    rw [final_done_iff hIs hsT p, final_done_iff hIt htT p]
  refine ⟨hdone, ?_, ?_⟩
  · ext e
    rw [final_edges_iff hIs hsT e, final_edges_iff hIt htT e]
  · rw [hIs.slices_eq, hIt.slices_eq, hdone]

/-- A successful concrete run is one of the admissible executions of the loop,
and it ends with an exhausted frontier. -/
theorem cut_loop_sound (size : Pt) (sc : ShredConfig) :
    ∀ (pops : List Pt) (s t : BuildState), cut_loop size sc pops s = some t →
      cutRun size sc s t ∧ t.todo = ∅ := by
  intro pops
  induction pops with
  | nil =>
    intro s t h
    simp only [cut_loop] at h
    split at h
    next hT =>
      injection h with h
      subst h
      exact ⟨Relation.ReflTransGen.refl, hT⟩
    next => simp at h
  | cons p ps ih =>
    intro s t h
    simp only [cut_loop] at h
    split at h
    next hp =>
      obtain ⟨hrun, hT⟩ := ih (process_base_point size sc p s) t h
      exact ⟨Relation.ReflTransGen.head ⟨p, hp, rfl⟩ hrun, hT⟩
    next => simp at h

/-! Termination: the done set grows at every step and is contained in a fixed
finite region, so every execution of the while-loop is finite. -/

/-- The (finite) rectangle of all in-bounds base points. -/
def boundRegion (size : Pt) (sc : ShredConfig) : Finset Pt :=
  Finset.Icc origin (size - sc.mshape)

theorem in_bounds_mem_boundRegion {size : Pt} {sc : ShredConfig} {q : Pt}
    (h : in_bounds size sc q) : q ∈ boundRegion size sc := by
  obtain ⟨h1, h2, h3, h4⟩ := h
  simp only [boundRegion, Finset.mem_Icc, Prod.le_def, Prod.fst_sub, Prod.snd_sub, origin]
  omega

theorem reach_mem_bound {size : Pt} {sc : ShredConfig} {p : Pt}
    (h : ReachablePt size sc p) : p ∈ insert origin (boundRegion size sc) := by
  induction h with
  | base => exact Finset.mem_insert_self _ _
  | step hp hq ih =>
    exact Finset.mem_insert_of_mem
      (in_bounds_mem_boundRegion (mem_valid_neighbors.mp hq).2)

theorem done_card_le {size : Pt} {sc : ShredConfig} {s : BuildState}
    (hI : LoopInv size sc s) : s.done.card ≤ (boundRegion size sc).card + 1 := by
  calc s.done.card ≤ (insert origin (boundRegion size sc)).card :=
        Finset.card_le_card fun p hp => reach_mem_bound (hI.done_reach p hp)
    _ ≤ (boundRegion size sc).card + 1 := Finset.card_insert_le _ _

theorem step_done_card {size : Pt} {sc : ShredConfig} {s t : BuildState}
    (hI : LoopInv size sc s) (hst : cutStep size sc s t) :
    t.done.card = s.done.card + 1 := by
  obtain ⟨p, hp, rfl⟩ := hst
  rw [process_done]
  have hnd : p ∉ s.done := fun hd => hI.disj p hd hp
  rw [Finset.card_insert_of_not_mem hnd]

/-- Every chain of loop iterations from the initial state has bounded length:
the while-loop of cut_to_shreds cannot run forever, whatever the pop order. -/
theorem run_length_bound (size : Pt) (sc : ShredConfig) (n : ℕ) (f : ℕ → BuildState)
    (h0 : f 0 = initState) (hs : ∀ i, i < n → cutStep size sc (f i) (f (i + 1))) :
    n ≤ (boundRegion size sc).card + 1 := by
  have hrun : ∀ i, i ≤ n → cutRun size sc initState (f i) := by
    intro i
    induction i with
    | zero =>
      intro _
      rw [h0]
      exact Relation.ReflTransGen.refl
    | succ i ih =>
      intro hi
      exact Relation.ReflTransGen.tail (ih (by omega)) (hs i (by omega))
  have hcard : ∀ i, i ≤ n → i ≤ (f i).done.card := by
    intro i
    induction i with
    | zero => intro _; omega
    | succ i ih =>
      intro hi
      have h1 := step_done_card (cutRun_inv (hrun i (by omega))) (hs i (by omega))
      have h2 := ih (by omega)
      omega
  have h3 := hcard n (le_refl n)
  have h4 := done_card_le (cutRun_inv (hrun n (le_refl n)))
  omega

/-! Correctness of the computable closure: reachSet is reflexive-transitive
reachability. -/

theorem mem_stepSet {α : Type} [Fintype α] [DecidableEq α] {r : α → α → Prop} [DecidableRel r]
    {s : Finset α} {b : α} : b ∈ stepSet r s ↔ b ∈ s ∨ ∃ a ∈ s, r a b := by
  simp [stepSet]

theorem subset_stepSet {α : Type} [Fintype α] [DecidableEq α] (r : α → α → Prop) [DecidableRel r]
    (s : Finset α) : s ⊆ stepSet r s :=
  Finset.subset_union_left

theorem closureN_mono_succ {α : Type} [Fintype α] [DecidableEq α] (r : α → α → Prop)
    [DecidableRel r] (n : ℕ) (s : Finset α) : closureN r n s ⊆ closureN r (n + 1) s :=
  subset_stepSet r (closureN r n s)

theorem closureN_mono {α : Type} [Fintype α] [DecidableEq α] (r : α → α → Prop) [DecidableRel r]
    {m n : ℕ} (h : m ≤ n) (s : Finset α) : closureN r m s ⊆ closureN r n s := by
  induction n with
  | zero =>
    obtain rfl : m = 0 := by omega
    exact Finset.Subset.refl _
  | succ n ih =>
    rcases Nat.lt_or_ge m (n + 1) with h1 | h1
    · exact (ih (by omega)).trans (closureN_mono_succ r n s)
    · obtain rfl : m = n + 1 := by omega
      exact Finset.Subset.refl _

theorem mem_closureN_sound {α : Type} [Fintype α] [DecidableEq α] (r : α → α → Prop)
    [DecidableRel r] (x : α) :
    ∀ (n : ℕ) (y : α), y ∈ closureN r n {x} → Relation.ReflTransGen r x y := by
  intro n
  induction n with
  | zero =>
    intro y hy
    simp only [closureN, Finset.mem_singleton] at hy
    subst hy
    exact Relation.ReflTransGen.refl
  | succ n ih =>
    intro y hy
    rw [show closureN r (n + 1) {x} = stepSet r (closureN r n {x}) from rfl, mem_stepSet] at hy
    rcases hy with hy | ⟨a, ha, hr⟩
    · exact ih y hy
    · exact Relation.ReflTransGen.tail (ih a ha) hr

theorem mem_closureN_complete {α : Type} [Fintype α] [DecidableEq α] (r : α → α → Prop)
    [DecidableRel r] {x y : α} (h : Relation.ReflTransGen r x y) :
    ∃ n, y ∈ closureN r n {x} := by
  induction h with
  | refl => exact ⟨0, by simp [closureN]⟩
  | tail hab hbc ih =>
    obtain ⟨n, hn⟩ := ih
    refine ⟨n + 1, ?_⟩
    rw [show closureN r (n + 1) {x} = stepSet r (closureN r n {x}) from rfl, mem_stepSet]
    exact Or.inr ⟨_, hn, hbc⟩

theorem closureN_stab {α : Type} [Fintype α] [DecidableEq α] (r : α → α → Prop) [DecidableRel r]
    (s : Finset α) (n : ℕ) (h : closureN r (n + 1) s = closureN r n s) :
    ∀ m, n ≤ m → closureN r m s = closureN r n s := by
  intro m hm
  induction m with
  | zero =>
    obtain rfl : n = 0 := by omega
    rfl
  | succ m ih =>
    rcases Nat.lt_or_ge n (m + 1) with h1 | h1
    · have hme : closureN r m s = closureN r n s := ih (by omega)
      show stepSet r (closureN r m s) = closureN r n s
      rw [hme]
      exact h
    · obtain rfl : n = m + 1 := by omega
      rfl

theorem exists_closureN_fix {α : Type} [Fintype α] [DecidableEq α] (r : α → α → Prop)
    [DecidableRel r] (x : α) :
    ∃ i, i ≤ Fintype.card α ∧ closureN r (i + 1) {x} = closureN r i {x} := by
  by_contra hc
  push_neg at hc
  have hstrict : ∀ i, i ≤ Fintype.card α → i + 1 ≤ (closureN r i {x}).card := by
    intro i
    induction i with
    | zero =>
      intro _
      simp [closureN]
    | succ i ih =>
      intro hi
      have h1 : closureN r i {x} ⊆ closureN r (i + 1) {x} := closureN_mono_succ r i {x}
      have h2 : closureN r (i + 1) {x} ≠ closureN r i {x} := hc i (by omega)
      have h3 : closureN r i {x} ⊂ closureN r (i + 1) {x} :=
        Finset.ssubset_iff_subset_ne.mpr ⟨h1, fun he => h2 he.symm⟩
      have h4 := Finset.card_lt_card h3
      have h5 := ih (by omega)
      omega
  have h6 := hstrict (Fintype.card α) (le_refl _)
  have h7 := Finset.card_le_univ (closureN r (Fintype.card α) {x})
  omega

theorem mem_reachSet {α : Type} [Fintype α] [DecidableEq α] {r : α → α → Prop} [DecidableRel r]
    {x y : α} : y ∈ reachSet r x ↔ Relation.ReflTransGen r x y := by
  constructor
  · exact mem_closureN_sound r x (Fintype.card α) y
  · intro h
    obtain ⟨n, hn⟩ := mem_closureN_complete r h
    obtain ⟨i, hi, hfix⟩ := exists_closureN_fix r x
    rcases le_or_lt n (Fintype.card α) with h1 | h1
    · exact closureN_mono r h1 {x} hn
    · have he : closureN r n {x} = closureN r i {x} := closureN_stab r {x} i hfix n (by omega)
      exact closureN_mono r hi {x} (he ▸ hn)

/-! Facts about the image primitives. -/

theorem outside_mask_cases {h w : ℕ} (M : Image h w) (i : Fin h) (j : Fin w) :
    outside_mask M i j = 0 ∨ outside_mask M i j = 255 := by
  unfold outside_mask
  split <;> simp

theorem with_outside_binary {h w : ℕ} {I : Image h w} (M : Image h w)
    (hI : ∀ i j, I i j = 0 ∨ I i j = 255) (i : Fin h) (j : Fin w) :
    with_outside I M i j = 0 ∨ with_outside I M i j = 255 := by
  unfold with_outside
  rcases hI i j with h1 | h1 <;> rcases outside_mask_cases M i j with h2 | h2 <;>
    rw [h1, h2] <;> simp

theorem flood_mask_one_iff_reach {h w : ℕ} {I : Image h w} (M : Image h w)
    (hI : ∀ i j, I i j = 0 ∨ I i j = 255) (sd p : Fin h × Fin w) :
    flood_mask_one I M sd p ↔ p ∈ reachSet (fill_step I M) sd := by
  unfold flood_mask_one
  rcases with_outside_binary M hI p.1 p.2 with h1 | h1 <;> rw [h1] <;> simp

/-- C2 (amended): when the foreground mask has no pixel different from 255,
preserve_outermost does fail, but because the seed-point selection
np.argwhere(outside_mask == 255)[0] indexes an empty result — an out-of-range
index (IndexError) — not through an explicitly detected InvalidMask condition,
which the source does not contain. -/
theorem C2_no_seed_point (h w : ℕ) (I M : Image h w) (hM : ∀ i j, M i j = 255) :
    argwhere_first (outside_mask M) 255 = none ∧ preserve_outermost I M = none := by
  have ha : argwhere_first (outside_mask M) 255 = none := by
    unfold argwhere_first
    rw [List.find?_eq_none]
    intro p hp
    simp [outside_mask, hM]
  exact ⟨ha, by unfold preserve_outermost; rw [ha]; rfl⟩

/-- C2 counterexample: on an all-255 mask the seed-point query is empty, so
the source hits an out-of-range index at argwhere(...)[0] (modelled as the
none result) instead of an explicit InvalidMask check. -/
theorem C2_counterexample :
    argwhere_first (outside_mask maskAll255) 255 = none ∧
    preserve_outermost maskAll255 maskAll255 = none := by
  decide

/-- Witness for C2's amended theorem at a concrete all-255 mask. -/
theorem C2_no_seed_point_witness :
    maskAll255 0 0 = 255 ∧ preserve_outermost maskAll255 maskAll255 = none :=
  ⟨rfl, (C2_no_seed_point 2 2 maskAll255 maskAll255 fun _ _ => rfl).2⟩

/-- C5: preserve_outermost is idempotent on binary inputs: applying the filter
to its own output with the same mask returns the output unchanged.  Dropped
components cannot reappear: every flood-fill path of the first pass survives
in the second, because each pixel on it is either outside (mask below 255) or
a kept foreground pixel. -/
theorem C5_preserve_outermost_idempotent (h w : ℕ) (I M : Image h w)
    (hI : ∀ i j, I i j = 0 ∨ I i j = 255)
    (hM : ∀ i j, M i j = 0 ∨ M i j = 255)
    (hseed : ∃ i j, M i j ≠ 255)
    (O : Image h w) (hO : preserve_outermost I M = some O) :
    preserve_outermost O M = some O := by
  unfold preserve_outermost at hO ⊢
  cases ha : argwhere_first (outside_mask M) 255 with
  | none => rw [ha] at hO; simp at hO
  | some sd =>
    rw [ha] at hO
    rw [Option.map_some'] at hO ⊢
    have hOdef : (fun i j => if flood_mask_one I M sd (i, j) then I i j else 0) = O :=
      Option.some.inj hO
    have hObin : ∀ i j, O i j = 0 ∨ O i j = 255 := by
      intro i j
      rw [← hOdef]
      by_cases hk : flood_mask_one I M sd (i, j)
      · simpa [hk] using hI i j
      · simp [hk]
    have hmap : ∀ y, Relation.ReflTransGen (fill_step I M) sd y →
        Relation.ReflTransGen (fill_step O M) sd y := by
      intro y hy
      induction hy with
      | refl => exact Relation.ReflTransGen.refl
      | @tail b c hab hbc ih =>
        refine Relation.ReflTransGen.tail ih ⟨hbc.1, ?_⟩
        rcases outside_mask_cases M c.1 c.2 with hout | hout
        · have hwoc := hbc.2
          unfold with_outside at hwoc
          rw [hout] at hwoc
          have hIc : I c.1 c.2 = 255 := by simpa using hwoc
          have hreach := mem_reachSet.mpr (Relation.ReflTransGen.tail hab hbc)
          have hOc : O c.1 c.2 = 255 := by
            rw [← hOdef]
            show (if flood_mask_one I M sd (c.1, c.2) then I c.1 c.2 else 0) = 255
            rw [if_pos (show flood_mask_one I M sd (c.1, c.2) from Or.inl hreach)]
            exact hIc
          unfold with_outside
          rw [hOc, hout]
          decide
        · unfold with_outside
          rw [hout]
          rcases hObin c.1 c.2 with h1 | h1 <;> rw [h1] <;> decide
    refine congrArg some ?_
    funext i j
    by_cases hk2 : flood_mask_one O M sd (i, j)
    · rw [if_pos hk2]
    · rw [if_neg hk2]
      by_contra hne
      have hOij : O i j = 255 := by
        rcases hObin i j with h1 | h1
        · exact absurd h1.symm hne
        · exact h1
      have h0 : (if flood_mask_one I M sd (i, j) then I i j else 0) = O i j :=
        congrFun (congrFun hOdef i) j
      have h1 : (if flood_mask_one I M sd (i, j) then I i j else 0) = 255 := by
        rw [h0]; exact hOij
      by_cases hk1 : flood_mask_one I M sd (i, j)
      · have hreach1 := (flood_mask_one_iff_reach M hI sd (i, j)).mp hk1
        have hreach2 := mem_reachSet.mpr (hmap _ (mem_reachSet.mp hreach1))
        exact hk2 (Or.inl hreach2)
      · rw [if_neg hk1] at h1
        exact absurd h1 (by omega)

/-- Witness for C5 at a concrete pair: the isolated centre pixel is dropped by
the first pass and the second pass leaves the result unchanged. -/
theorem C5_preserve_outermost_idempotent_witness :
    preserve_outermost imgCenter maskCorner = some imgDropped ∧
    preserve_outermost imgDropped maskCorner = some imgDropped :=
  ⟨by decide,
   C5_preserve_outermost_idempotent 3 3 imgCenter maskCorner (by decide) (by decide)
     ⟨0, 0, by decide⟩ imgDropped (by decide)⟩

/-- C9: is_good_node holds exactly when the fraction of nonzero pixels
strictly exceeds 0.05; an all-zero image is never good, an image with exactly
10 percent nonzero pixels always is. -/
theorem C9_is_good_node (h w : ℕ) (img : Image h w) (hpos : 0 < h * w) :
    (is_good_node img ↔ ((count_nonzero img : ℚ) / ((h * w : ℕ) : ℚ) > 0.05)) ∧
    ((∀ i j, img i j = 0) → ¬ is_good_node img) ∧
    (10 * count_nonzero img = h * w → is_good_node img) := by
  refine ⟨Iff.rfl, ?_, ?_⟩
  · intro hz hg
    have hc : count_nonzero img = 0 := by
      unfold count_nonzero
      rw [Finset.card_eq_zero, Finset.filter_eq_empty_iff]
      intro p _
      simp [hz]
    unfold is_good_node at hg
    rw [hc] at hg
    norm_num at hg
  · intro h10
    unfold is_good_node
    have hpos' : (0 : ℚ) < ((h * w : ℕ) : ℚ) := by exact_mod_cast hpos
    have hc' : (10 : ℚ) * (count_nonzero img : ℚ) = ((h * w : ℕ) : ℚ) := by
      exact_mod_cast h10
    rw [gt_iff_lt, lt_div_iff₀ hpos']
    linarith

/-- Witness for C9 at two concrete images: one with 10 percent nonzero pixels,
one all-zero. -/
theorem C9_is_good_node_witness :
    0 < 2 * 5 ∧ is_good_node img10pct ∧ ¬ is_good_node imgZero :=
  ⟨by decide,
   (C9_is_good_node 2 5 img10pct (by decide)).2.2 (by decide),
   (C9_is_good_node 1 1 imgZero (by decide)).2.1 fun _ _ => rfl⟩

/-! The claims about cut_to_shreds. -/

theorem in_bounds_iff_slice (size : Pt) (sc : ShredConfig) (q : Pt) :
    in_bounds size sc q ↔ sliceInBounds size (node_slice sc q) := by
  unfold in_bounds sliceInBounds node_slice to_slice
  dsimp only
  constructor
  · rintro ⟨h1, h2, h3, h4⟩; exact ⟨h1, h3, h2, h4⟩
  · rintro ⟨h1, h2, h3, h4⟩; exact ⟨h1, h3, h2, h4⟩

theorem in_bounds_origin {size : Pt} {sc : ShredConfig} {q : Pt} (h : in_bounds size sc q) :
    in_bounds size sc origin := by
  obtain ⟨h1, h2, h3, h4⟩ := h
  refine ⟨le_refl 0, le_refl 0, ?_, ?_⟩
  · show (0 : ℤ) + sc.mshape.1 ≤ size.1
    omega
  · show (0 : ℤ) + sc.mshape.2 ≤ size.2
    omega

theorem reach_in_bounds {size : Pt} {sc : ShredConfig} {p : Pt} (h : ReachablePt size sc p) :
    p = origin ∨ in_bounds size sc p := by
  induction h with
  | base => exact Or.inl rfl
  | step hp hq ih => exact Or.inr (mem_valid_neighbors.mp hq).2

theorem cand_self {sc : ShredConfig} {p : Pt} (h : p ∈ neighbor_candidates sc p) :
    sc.right = ((0 : ℤ), (0 : ℤ)) ∨ sc.bottom = ((0 : ℤ), (0 : ℤ)) := by
  have hz : ((0 : ℤ), (0 : ℤ)) = (0 : Pt) := rfl
  rw [hz]
  rcases mem_neighbor_candidates.mp h with h1 | h1 | h1 | h1
  · exact Or.inl (add_right_eq_self.mp (eq_sub_iff_add_eq.mp h1))
  · exact Or.inl (self_eq_add_right.mp h1)
  · exact Or.inr (add_right_eq_self.mp (eq_sub_iff_add_eq.mp h1))
  · exact Or.inr (self_eq_add_right.mp h1)

theorem cand_iff_diff {sc : ShredConfig} {p q : Pt} :
    q ∈ neighbor_candidates sc p ↔
      (q - p = sc.right ∨ q - p = -sc.right ∨ q - p = sc.bottom ∨ q - p = -sc.bottom) := by
  rw [mem_neighbor_candidates]
  simp only [Prod.ext_iff, Prod.fst_sub, Prod.snd_sub, Prod.fst_add, Prod.snd_add,
    Prod.fst_neg, Prod.snd_neg]
  omega

/-- C3 (amended): in the terminal graph, normEdge a b is an edge exactly when
b - a is one of the four offset vectors, both slices are in bounds, and a is a
node of the graph (reachable from the root); without the last condition the
equivalence fails, see the counterexample. -/
theorem C3_edge_iff (size : Pt) (sc : ShredConfig) (s : BuildState)
    (hrun : cutRun size sc initState s) (hT : s.todo = ∅) (a b : Pt) :
    normEdge a b ∈ s.edges ↔
      ((b - a = sc.right ∨ b - a = -sc.right ∨ b - a = sc.bottom ∨ b - a = -sc.bottom) ∧
       sliceInBounds size (node_slice sc a) ∧ sliceInBounds size (node_slice sc b) ∧
       a ∈ s.done) := by
  have hI := cutRun_inv hrun
  constructor
  · intro he
    obtain ⟨p, q, hp, hq, heq⟩ := (final_edges_iff hI hT (normEdge a b)).mp he
    obtain ⟨hqc, hqb⟩ := mem_valid_neighbors.mp hq
    have hpd : p ∈ s.done := (final_done_iff hI hT p).mpr hp
    have hqd : q ∈ s.done := by
      rcases hI.closed p hpd q hq with h | h
      · exact h
      · rw [hT] at h
        exact absurd h (Finset.not_mem_empty _)
    have hdiff := cand_iff_diff.mp hqc
    have hpb : p = origin ∨ in_bounds size sc p := reach_in_bounds hp
    rcases normEdge_eq heq with ⟨rfl, rfl⟩ | ⟨rfl, rfl⟩
    · refine ⟨by tauto, ?_, (in_bounds_iff_slice size sc b).mp hqb, hpd⟩
      rw [← in_bounds_iff_slice]
      rcases hpb with rfl | hb
      · exact in_bounds_origin hqb
      · exact hb
    · refine ⟨?_, (in_bounds_iff_slice size sc a).mp hqb, ?_, hqd⟩
      · simp only [Prod.ext_iff, Prod.fst_sub, Prod.snd_sub, Prod.fst_neg, Prod.snd_neg] at hdiff ⊢
        omega
      · rw [← in_bounds_iff_slice]
        rcases hpb with rfl | hb
        · exact in_bounds_origin hqb
        · exact hb
  · rintro ⟨hdiff, hsa, hsb, had⟩
    have hbin : in_bounds size sc b := (in_bounds_iff_slice size sc b).mpr hsb
    have hbc : b ∈ neighbor_candidates sc a := by
      rw [cand_iff_diff]
      simp only [Prod.ext_iff, Prod.fst_sub, Prod.snd_sub, Prod.fst_neg, Prod.snd_neg] at hdiff ⊢
      omega
    exact hI.edges_sup a had b (mem_valid_neighbors.mpr ⟨hbc, hbin⟩)

/-- C3 counterexample: with size = (1, 5), mask shape (1, 1), right = (0, 2),
bottom = (1, 0), the pair a = (0, 1), b = (0, 3) satisfies b - a = right with
both slices in bounds, yet the graph returned by cut_to_shreds has no edge
between them: neither point is reachable from (0, 0). -/
theorem C3_counterexample :
    cut_to_shreds size3 sc3 [(0, 0), (0, 2), (0, 4)] = some c3final ∧
    ((0, 3) : Pt) - (0, 1) = sc3.right ∧
    sliceInBounds size3 (node_slice sc3 (0, 1)) ∧
    sliceInBounds size3 (node_slice sc3 (0, 3)) ∧
    normEdge (0, 1) (0, 3) ∉ c3final.edges := by
  decide

/-- Witness for C3's amended equivalence at the same configuration. -/
theorem C3_edge_iff_witness :
    (normEdge ((0 : ℤ), (0 : ℤ)) (0, 2) ∈ c3final.edges ↔
      ((((0 : ℤ), (2 : ℤ)) - (0, 0) = sc3.right ∨ ((0 : ℤ), (2 : ℤ)) - (0, 0) = -sc3.right ∨
        ((0 : ℤ), (2 : ℤ)) - (0, 0) = sc3.bottom ∨ ((0 : ℤ), (2 : ℤ)) - (0, 0) = -sc3.bottom) ∧
       sliceInBounds size3 (node_slice sc3 (0, 0)) ∧ sliceInBounds size3 (node_slice sc3 (0, 2)) ∧
       (0, 0) ∈ c3final.done)) :=
  C3_edge_iff size3 sc3 c3final
    (cut_loop_sound size3 sc3 [(0, 0), (0, 2), (0, 4)] initState c3final (by decide)).1
    (by decide) (0, 0) (0, 2)

/-- C4: when mask.shape fits in the document size, every node of the returned
graph has its slice attribute entirely inside [0, size): there is no node at
an out-of-bounds position. -/
theorem C4_slices_in_bounds (size : Pt) (sc : ShredConfig)
    (h1 : sc.mshape.1 ≤ size.1) (h2 : sc.mshape.2 ≤ size.2)
    (s : BuildState) (hrun : cutRun size sc initState s) (hT : s.todo = ∅) :
    (∀ p ∈ s.done, sliceInBounds size (node_slice sc p)) ∧
    (∀ e ∈ s.slices, sliceInBounds size e.2) := by
  have hI := cutRun_inv hrun
  have hmain : ∀ p ∈ s.done, sliceInBounds size (node_slice sc p) := by
    intro p hp
    rw [← in_bounds_iff_slice]
    rcases reach_in_bounds ((final_done_iff hI hT p).mp hp) with rfl | hb
    · refine ⟨le_refl 0, le_refl 0, ?_, ?_⟩
      · show (0 : ℤ) + sc.mshape.1 ≤ size.1
        omega
      · show (0 : ℤ) + sc.mshape.2 ≤ size.2
        omega
    · exact hb
  refine ⟨hmain, ?_⟩
  intro e he
  rw [hI.slices_eq] at he
  obtain ⟨p, hp, rfl⟩ := Finset.mem_image.mp he
  exact hmain p hp

/-- Witness for C4 on the 2-by-2 grid configuration. -/
theorem C4_slices_in_bounds_witness :
    sc7.mshape.1 ≤ size7.1 ∧ sc7.mshape.2 ≤ size7.2 ∧
    sliceInBounds size7 (node_slice sc7 (110, 110)) :=
  ⟨by decide, by decide,
   (C4_slices_in_bounds size7 sc7 (by decide) (by decide) c7final
      (cut_loop_sound size7 sc7 [(0, 0), (0, 110), (110, 0), (110, 110)] initState c7final
        (by decide)).1
      (by decide)).1 (110, 110) (by decide)⟩

/-- C6: for nondegenerate offsets (both nonzero), every node of the returned
graph is reachable from the base point (0, 0) along graph edges, and the graph
has no self-loops. -/
theorem C6_connected_no_self_loops (size : Pt) (sc : ShredConfig)
    (hr : sc.right ≠ ((0 : ℤ), (0 : ℤ))) (hb : sc.bottom ≠ ((0 : ℤ), (0 : ℤ)))
    (s : BuildState) (hrun : cutRun size sc initState s) (hT : s.todo = ∅) :
    (∀ p ∈ s.done, graph_reach s.edges origin p) ∧ ∀ p : Pt, (p, p) ∉ s.edges := by
  have hI := cutRun_inv hrun
  constructor
  · intro p hp
    have h := (final_done_iff hI hT p).mp hp
    clear hp
    induction h with
    | base => exact Relation.ReflTransGen.refl
    | step hp' hq' ih =>
      exact Relation.ReflTransGen.tail ih
        (hI.edges_sup _ ((final_done_iff hI hT _).mpr hp') _ hq')
  · intro p hpe
    obtain ⟨a, b, ha, hvb, heq⟩ := (final_edges_iff hI hT (p, p)).mp hpe
    have heq' : normEdge p p = normEdge a b := by rw [normEdge_self]; exact heq
    have hab : a = p ∧ b = p := by
      rcases normEdge_eq heq' with ⟨u, v⟩ | ⟨u, v⟩
      · exact ⟨u.symm, v.symm⟩
      · exact ⟨v.symm, u.symm⟩
    obtain ⟨rfl, rfl⟩ := hab
    rcases cand_self (mem_valid_neighbors.mp hvb).1 with h0 | h0
    · exact hr h0
    · exact hb h0

/-- Witness for C6 on the 2-by-2 grid configuration. -/
theorem C6_connected_no_self_loops_witness :
    sc7.right ≠ ((0 : ℤ), (0 : ℤ)) ∧ sc7.bottom ≠ ((0 : ℤ), (0 : ℤ)) ∧
    graph_reach c7final.edges origin (110, 110) ∧
    ((110, 110), (110, 110)) ∉ c7final.edges := by
  have h := C6_connected_no_self_loops size7 sc7 (by decide) (by decide) c7final
    (cut_loop_sound size7 sc7 [(0, 0), (0, 110), (110, 0), (110, 110)] initState c7final
      (by decide)).1
    (by decide)
  exact ⟨by decide, by decide, h.1 (110, 110) (by decide), h.2 (110, 110)⟩

/-- C7: on size (220, 220) with mask shape (100, 100), right = (0, 110) and
bottom = (110, 0), the returned graph has exactly the four nodes of a 2-by-2
grid and exactly the four edges of a single 4-cycle. -/
theorem C7_two_by_two_grid (s : BuildState)
    (hrun : cutRun size7 sc7 initState s) (hT : s.todo = ∅) :
    s.done = {((0 : ℤ), (0 : ℤ)), (0, 110), (110, 0), (110, 110)} ∧ s.done.card = 4 ∧
    s.edges = {(((0 : ℤ), (0 : ℤ)), ((0 : ℤ), (110 : ℤ))), ((0, 0), (110, 0)),
               ((0, 110), (110, 110)), ((110, 0), (110, 110))} ∧ s.edges.card = 4 := by
  obtain ⟨hrun1, hT1⟩ :=
    cut_loop_sound size7 sc7 [(0, 0), (0, 110), (110, 0), (110, 110)] initState c7final
      (by decide)
  obtain ⟨hd, he, -⟩ := final_unique hrun hT hrun1 hT1
  rw [hd, he]
  decide

/-- Witness for C7 at the executable run. -/
theorem C7_two_by_two_grid_witness :
    c7final.done = {((0 : ℤ), (0 : ℤ)), (0, 110), (110, 0), (110, 110)} ∧
    c7final.done.card = 4 ∧
    c7final.edges = {(((0 : ℤ), (0 : ℤ)), ((0 : ℤ), (110 : ℤ))), ((0, 0), (110, 0)),
                     ((0, 110), (110, 110)), ((110, 0), (110, 110))} ∧
    c7final.edges.card = 4 :=
  C7_two_by_two_grid c7final
    (cut_loop_sound size7 sc7 [(0, 0), (0, 110), (110, 0), (110, 110)] initState c7final
      (by decide)).1
    (by decide)

/-- C8: the returned graph does not depend on the order in which frontier
elements are popped: any two terminal runs agree on node set, edge set and
slice attributes. -/
theorem C8_pop_order_irrelevant (size : Pt) (sc : ShredConfig) (s1 s2 : BuildState)
    (h1 : cutRun size sc initState s1) (hT1 : s1.todo = ∅)
    (h2 : cutRun size sc initState s2) (hT2 : s2.todo = ∅) :
    s1.done = s2.done ∧ s1.edges = s2.edges ∧ s1.slices = s2.slices :=
  final_unique h1 hT1 h2 hT2

/-- Witness for C8: two different pop orders of the 2-by-2 grid produce the
same terminal graph. -/
theorem C8_pop_order_irrelevant_witness :
    cut_to_shreds size7 sc7 [(0, 0), (110, 0), (0, 110), (110, 110)] = some c7final ∧
    (c7final.done = c7final.done ∧ c7final.edges = c7final.edges ∧
     c7final.slices = c7final.slices) :=
  ⟨by decide,
   C8_pop_order_irrelevant size7 sc7 c7final c7final
     (cut_loop_sound size7 sc7 [(0, 0), (0, 110), (110, 0), (110, 110)] initState c7final
       (by decide)).1
     (by decide)
     (cut_loop_sound size7 sc7 [(0, 0), (110, 0), (0, 110), (110, 110)] initState c7final
       (by decide)).1
     (by decide)⟩

/-- C1 (amended): cut_to_shreds performs no configuration validation.  With
right = (0, 1) and bottom = (0, 0) on a 5-by-5 document with a unit mask, the
while-loop still terminates — every pop chain takes at most 26 steps — and the
call silently returns a graph in which every node carries a self-loop, rather
than raising an InvalidConfiguration error (the source has no such check). -/
theorem C1_degenerate_config_terminates :
    (∀ (n : ℕ) (f : ℕ → BuildState), f 0 = initState →
        (∀ i, i < n → cutStep size1 sc1 (f i) (f (i + 1))) → n ≤ 26) ∧
    (∀ s, cutRun size1 sc1 initState s → s.todo = ∅ →
        s.done = c1final.done ∧ s.edges = c1final.edges ∧
        ∀ p ∈ s.done, normEdge p p ∈ s.edges) := by
  constructor
  · intro n f h0 hs
    have hb := run_length_bound size1 sc1 n f h0 hs
    have hc : (boundRegion size1 sc1).card = 25 := by decide
    omega
  · intro s hrun hT
    obtain ⟨hrun1, hT1⟩ :=
      cut_loop_sound size1 sc1 [(0, 0), (0, 1), (0, 2), (0, 3), (0, 4)] initState c1final
        (by decide)
    obtain ⟨hd, he, -⟩ := final_unique hrun hT hrun1 hT1
    refine ⟨hd, he, ?_⟩
    rw [hd, he]
    decide

/-- C1 counterexample: the degenerate configuration right = (0, 1),
bottom = (0, 0) completes normally and returns a nonempty graph containing a
self-loop at the root: no InvalidConfiguration failure occurs. -/
theorem C1_counterexample :
    cut_to_shreds size1 sc1 [(0, 0), (0, 1), (0, 2), (0, 3), (0, 4)] = some c1final ∧
    normEdge (0, 0) (0, 0) ∈ c1final.edges ∧ c1final.done.Nonempty := by
  decide

/-- Witness for C1's amended theorem: the empty chain satisfies the bound, and
the terminal graph of the executable run carries the stated self-loop. -/
theorem C1_degenerate_config_terminates_witness :
    (0 : ℕ) ≤ 26 ∧ normEdge ((0 : ℤ), (2 : ℤ)) (0, 2) ∈ c1final.edges := by
  refine ⟨C1_degenerate_config_terminates.1 0 (fun _ => initState) rfl
    (fun i hi => absurd hi (by omega)), ?_⟩
  have h := (C1_degenerate_config_terminates.2 c1final
    (cut_loop_sound size1 sc1 [(0, 0), (0, 1), (0, 2), (0, 3), (0, 4)] initState c1final
      (by decide)).1
    (by decide)).2.2
  exact h (0, 2) (by decide)

/-- C10: whatever the size and configuration — even a mask larger than the
document — the terminal graph contains the root (0, 0) as a node carrying its
slice attribute, and is therefore never empty: the root is enqueued and
emitted unconditionally, with no bounds check. -/
theorem C10_root_always_node (size : Pt) (sc : ShredConfig) (s : BuildState)
    (hrun : cutRun size sc initState s) (hT : s.todo = ∅) :
    origin ∈ s.done ∧ (origin, node_slice sc origin) ∈ s.slices ∧ s.done.Nonempty := by
  have hI := cutRun_inv hrun
  have h0 : origin ∈ s.done := (final_done_iff hI hT origin).mpr ReachablePt.base
  refine ⟨h0, ?_, ⟨origin, h0⟩⟩
  rw [hI.slices_eq]
  exact Finset.mem_image_of_mem _ h0

/-- Witness for C10 with a mask strictly larger than the document, where even
the root's own slice is out of bounds. -/
theorem C10_root_always_node_witness :
    origin ∈ c10final.done ∧ (origin, node_slice sc10 origin) ∈ c10final.slices ∧
    c10final.done.Nonempty :=
  C10_root_always_node size10 sc10 c10final
    (cut_loop_sound size10 sc10 [(0, 0)] initState c10final (by decide)).1 (by decide)

end Shredsim
